import Mathlib

/-!
Verification of the task-pipeline engine (content-addressed, resumable
shell-script pipeline) against its natural-language specification.

The Go sources are shallowly embedded: strings are modelled as `List Char`
(the inputs of interest are ASCII, so byte indices and character indices
coincide), SQLite tables as Lean lists of row structures, and each database
operation as a pure state-passing function.  Fallible operations return
`Option`.
-/

namespace TaskPipeline

/-! ## Filename → logical name derivation

`extractStepName` is the routing function (run.go / part_004): it strips the
final extension (everything from the last `.`) and then takes the prefix
before the first `_`.  `MakeResourceConsumer` (part_001) instead derives the
resource name as `strings.Split(fd.Name, "_")[0]`: the prefix of the *whole*
filename before the first `_`, without stripping the extension.
-/

/-- Index of the first occurrence of `c` (Go `strings.Index`). -/
def indexOf (c : Char) : List Char → Option Nat
  | [] => none
  | a :: s => if a = c then some 0 else (indexOf c s).map (· + 1)

/-- Index of the last occurrence of `c` (Go `strings.LastIndex`). -/
def lastIndexOf (c : Char) : List Char → Option Nat
  | [] => none
  | a :: s =>
    match lastIndexOf c s with
    | some i => some (i + 1)
    | none => if a = c then some 0 else none

/-- The `base` computation of `extractStepName`: `filename[:idx]` for the
index of the last `.`, or the whole filename when there is no `.`. -/
def extractBase (filename : List Char) : List Char :=
  match lastIndexOf '.' filename with
  | some idx => filename.take idx
  | none => filename

/-- Go `extractStepName` (run.go lines 15-26 / part_004 lines 11-22). -/
def extractStepName (filename : List Char) : List Char :=
  match indexOf '_' (extractBase filename) with
  | some idx => (extractBase filename).take idx
  | none => extractBase filename

/-- The String wrapper for `extractStepName`. -/
def extractStepNameS (s : String) : String := ⟨extractStepName s.data⟩

/-- Go `strings.Split(s, sep)` for a one-character separator. -/
def splitOnChar (c : Char) : List Char → List (List Char)
  | [] => [[]]
  | a :: s =>
    if a = c then [] :: splitOnChar c s
    else
      match splitOnChar c s with
      | [] => [[a]]
      | t :: ts => (a :: t) :: ts

/-- The resource-name derivation of `MakeResourceConsumer`
(part_001 line 1189): `strings.Split(fd.Name, "_")[0]`. -/
def resourceConsumerName (s : List Char) : List Char :=
  (splitOnChar '_' s).headD []

/-- The String wrapper for `resourceConsumerName`. -/
def resourceConsumerNameS (s : String) : String := ⟨resourceConsumerName s.data⟩

/-- Modelled from the spec wording (§4.4): strip the final extension, that
is everything from the last `.`; keep the whole name when no `.` occurs. -/
def stripExtSpec (s : List Char) : List Char :=
  if s.contains '.' then (((s.reverse).dropWhile (fun c => !(c == '.'))).drop 1).reverse
  else s

/-- Modelled from the spec wording: the prefix before the first `_`
(the whole string when no `_` occurs). -/
def beforeUnderscore (s : List Char) : List Char :=
  s.takeWhile (fun c => !(c == '_'))

/-- Modelled from the spec wording: the claimed resource-name derivation;
first strip the final extension, then take the prefix before the
first `_`. -/
def specResourceName (s : List Char) : List Char :=
  beforeUnderscore (stripExtSpec s)

/-- The String wrapper for `specResourceName`. -/
def specResourceNameS (s : String) : String := ⟨specResourceName s.data⟩

theorem take_indexOf_eq_takeWhile (c : Char) (s : List Char) :
    (match indexOf c s with
      | some idx => s.take idx
      | none => s) = s.takeWhile (fun x => !(x == c)) := by
  induction s with
  | nil => simp [indexOf]
  | cons a s ih =>
    by_cases h : a = c
    · simp [indexOf, h, List.takeWhile_cons]
    · have hb : (!(a == c)) = true := by simp [h]
      simp only [indexOf, if_neg h, List.takeWhile_cons, hb, if_true]
      cases hio : indexOf c s with
      | none =>
        rw [hio] at ih
        simp only [Option.map_none']
        rw [← ih]
      | some i =>
        rw [hio] at ih
        simp only [Option.map_some', List.take_succ_cons]
        rw [← ih]

theorem lastIndexOf_eq_none_iff (c : Char) (s : List Char) :
    lastIndexOf c s = none ↔ c ∉ s := by
  induction s with
  | nil => simp [lastIndexOf]
  | cons a s ih =>
    simp only [lastIndexOf]
    cases hio : lastIndexOf c s with
    | some i =>
      constructor
      · intro h; cases h
      · intro h
        have hns : c ∉ s := fun hm => h (List.mem_cons_of_mem a hm)
        rw [ih.mpr hns] at hio
        cases hio
    | none =>
      have hs : c ∉ s := ih.mp hio
      by_cases h : a = c
      · subst h
        simp
      · have hca : ¬ c = a := fun hc => h hc.symm
        simp [if_neg h, List.mem_cons, hs, hca]

theorem mem_of_lastIndexOf_some {c : Char} {s : List Char} {i : Nat}
    (h : lastIndexOf c s = some i) : c ∈ s := by
  by_contra hc
  rw [(lastIndexOf_eq_none_iff c s).mpr hc] at h
  cases h

theorem dropWhile_append_of_exists {p : Char → Bool} {xs : List Char}
    (ys : List Char) (h : ∃ x ∈ xs, p x = false) :
    (xs ++ ys).dropWhile p = xs.dropWhile p ++ ys := by
  induction xs with
  | nil => simp at h
  | cons a xs ih =>
    cases ha : p a with
    | false => simp [List.dropWhile_cons, ha]
    | true =>
      obtain ⟨x, hx, hpx⟩ := h
      rcases List.mem_cons.mp hx with rfl | hx'
      · rw [ha] at hpx; cases hpx
      · simp only [List.cons_append, List.dropWhile_cons, ha, if_true]
        exact ih ⟨x, hx', hpx⟩

theorem dropWhile_append_of_all {p : Char → Bool} {xs : List Char}
    (ys : List Char) (h : ∀ x ∈ xs, p x = true) :
    (xs ++ ys).dropWhile p = ys.dropWhile p := by
  induction xs with
  | nil => simp
  | cons a xs ih =>
    simp only [List.cons_append, List.dropWhile_cons, h a (List.mem_cons_self a xs), if_true]
    exact ih fun x hx => h x (List.mem_cons_of_mem a hx)

theorem dropWhile_ne_nil_of_mem {c : Char} {s : List Char} (h : c ∈ s) :
    s.dropWhile (fun x => !(x == c)) ≠ [] := by
  induction s with
  | nil => cases h
  | cons a s ih =>
    by_cases ha : a = c
    · simp [List.dropWhile_cons, ha]
    · rcases List.mem_cons.mp h with rfl | h'
      · exact absurd rfl ha
      · have hb : (!(a == c)) = true := by simp [ha]
        simpa [List.dropWhile_cons, hb] using ih h'

theorem drop_one_append {u ys : List Char} (h : u ≠ []) :
    (u ++ ys).drop 1 = u.drop 1 ++ ys := by
  cases u with
  | nil => exact absurd rfl h
  | cons a u => simp

theorem stripExtSpec_cons_of_mem {s : List Char} (a : Char) (h : '.' ∈ s) :
    stripExtSpec (a :: s) = a :: stripExtSpec s := by
  have hc : s.contains '.' = true := List.elem_iff.mpr h
  have hc' : (a :: s).contains '.' = true :=
    List.elem_iff.mpr (List.mem_cons_of_mem a h)
  have hrev : '.' ∈ s.reverse := List.mem_reverse.mpr h
  have hex : ∃ x ∈ s.reverse, (!(x == '.')) = false := ⟨'.', hrev, by simp⟩
  simp only [stripExtSpec, hc, hc', if_true, List.reverse_cons]
  rw [dropWhile_append_of_exists _ hex,
    drop_one_append (dropWhile_ne_nil_of_mem hrev)]
  simp

theorem extractBase_eq_stripExtSpec (f : List Char) :
    extractBase f = stripExtSpec f := by
  induction f with
  | nil => simp [extractBase, lastIndexOf, stripExtSpec]
  | cons a s ih =>
    simp only [extractBase, lastIndexOf]
    cases hio : lastIndexOf '.' s with
    | some i =>
      have hmem : '.' ∈ s := mem_of_lastIndexOf_some hio
      show List.take (i + 1) (a :: s) = stripExtSpec (a :: s)
      rw [stripExtSpec_cons_of_mem a hmem, List.take_succ_cons, ← ih]
      simp [extractBase, hio]
    | none =>
      have hns : '.' ∉ s := (lastIndexOf_eq_none_iff '.' s).mp hio
      have hcs : s.contains '.' = false := by
        cases hcc : s.contains '.' with
        | false => rfl
        | true => exact absurd (List.elem_iff.mp hcc) hns
      by_cases h : a = '.'
      · subst h
        have hc' : ('.' :: s).contains '.' = true :=
          List.elem_iff.mpr (List.mem_cons_self _ s)
        have hall : ∀ x ∈ s.reverse, (!(x == '.')) = true := by
          intro x hx
          have : x ∈ s := List.mem_reverse.mp hx
          have hxne : ¬(x = '.') := fun he => hns (he ▸ this)
          simp [hxne]
        simp only [stripExtSpec, hc', if_true, List.reverse_cons, if_pos rfl]
        rw [dropWhile_append_of_all _ hall]
        simp [List.dropWhile_cons]
      · have hca : ¬ '.' = a := fun hh => h hh.symm
        simp [if_neg h, stripExtSpec, hca, hns]

theorem extractStepName_eq_specResourceName (f : List Char) :
    extractStepName f = specResourceName f := by
  unfold extractStepName specResourceName beforeUnderscore
  rw [extractBase_eq_stripExtSpec]
  exact take_indexOf_eq_takeWhile '_' (stripExtSpec f)

theorem resourceConsumerName_eq_beforeUnderscore (f : List Char) :
    resourceConsumerName f = beforeUnderscore f := by
  induction f with
  | nil => simp [resourceConsumerName, splitOnChar, beforeUnderscore]
  | cons a s ih =>
    by_cases h : a = '_'
    · simp [resourceConsumerName, splitOnChar, h, beforeUnderscore, List.takeWhile_cons]
    · have hb : (!(a == '_')) = true := by simp [h]
      simp only [resourceConsumerName, splitOnChar, if_neg h, beforeUnderscore,
        List.takeWhile_cons, hb, if_true]
      cases hsp : splitOnChar '_' s with
      | nil =>
        have ih' : ([] : List Char) = s.takeWhile (fun c => !(c == '_')) := by
          simpa [resourceConsumerName, hsp, beforeUnderscore] using ih
        show ([a] : List Char) = a :: s.takeWhile (fun c => !(c == '_'))
        rw [← ih']
      | cons t ts =>
        have ih' : t = s.takeWhile (fun c => !(c == '_')) := by
          simpa [resourceConsumerName, hsp, beforeUnderscore] using ih
        show a :: t = a :: s.takeWhile (fun c => !(c == '_'))
        rw [ih']

end TaskPipeline

namespace TaskPipeline

/-! ## Relational model (current resource-based schema, part_001)

`step`, `resource` and `task` tables are lists of rows in insertion order
(`AUTOINCREMENT` ids are handed out from `nextStepId` / `nextResourceId` /
`nextTaskId`, so the list order coincides with id order).  The `inputs`
column stores the canonical `json.Marshal` text of the input-name list;
since that encoding is injective the column is modelled directly as the
list, and the SQL text comparisons become list comparisons. -/

structure StepRow where
  id : Nat
  name : String
  script : String
  isStart : Bool
  parallel : Option Nat
  inputs : List String
  version : Nat
  deriving DecidableEq

structure TaskRow where
  id : Nat
  stepId : Nat
  inputResourceId : Option Nat
  processed : Bool
  error : Option String
  deriving DecidableEq

structure ResourceRow where
  id : Nat
  name : String
  objectHash : String
  deriving DecidableEq

structure DB where
  steps : List StepRow
  resources : List ResourceRow
  tasks : List TaskRow
  nextStepId : Nat
  nextResourceId : Nat
  nextTaskId : Nat
  deriving DecidableEq

/-- Go `GetStep`: `SELECT ... FROM step WHERE id = ?`. -/
def getStep (db : DB) (id : Nat) : Option StepRow :=
  db.steps.find? (fun s => s.id == id)

/-- One fold step of `maxByVersion`: keep the row with the larger version. -/
def pickMaxVersion (acc : Option StepRow) (s : StepRow) : Option StepRow :=
  match acc with
  | none => some s
  | some b => if s.version > b.version then some s else acc

/-- The row produced by `ORDER BY version DESC LIMIT 1`. -/
def maxByVersion (rows : List StepRow) : Option StepRow :=
  rows.foldl pickMaxVersion none

/-- Go `GetStepByName`: `WHERE name = ? ORDER BY version DESC LIMIT 1`. -/
def getStepByNameM (steps : List StepRow) (name : String) : Option StepRow :=
  maxByVersion (steps.filter (fun s => s.name == name))

/-- Go `GetStartingStep`: `WHERE is_start = 1 ORDER BY version DESC LIMIT 1`. -/
def getStartingStep (steps : List StepRow) : Option StepRow :=
  maxByVersion (steps.filter (fun s => s.isStart))

/-- The `UNIQUE(step_id, input_resource_id)` constraint with SQLite NULL
semantics: two rows conflict only when the step ids agree and both
input-resource ids are equal and non-NULL (SQLite treats NULLs as
pairwise distinct in unique indexes). -/
def taskConflict (ts : List TaskRow) (sid : Nat) (r : Option Nat) : Bool :=
  match r with
  | none => false
  | some rid => ts.any (fun t => t.stepId == sid && t.inputResourceId == some rid)

/-- Go `CreateTask` (part_001): a plain `INSERT`.  A unique-constraint
violation surfaces as an error (`none`); callers either panic or log and
skip, so no row is inserted in that case. -/
def createTask (db : DB) (sid : Nat) (r : Option Nat) (p : Bool)
    (e : Option String) : Option (Nat × DB) :=
  if taskConflict db.tasks sid r then none
  else
    some (db.nextTaskId,
      { db with
        tasks := db.tasks ++ [⟨db.nextTaskId, sid, r, p, e⟩]
        nextTaskId := db.nextTaskId + 1 })

/-- The rows inserted by the single `INSERT ... SELECT` of
`ScheduleTasksForStep`: one `(stepID, r.id, processed=0, error=NULL)` task
per selected resource, with consecutive autoincrement ids. -/
def newTasksFor (nextId sid : Nat) : List ResourceRow → List TaskRow
  | [] => []
  | r :: rs => ⟨nextId, sid, some r.id, false, none⟩ :: newTasksFor (nextId + 1) sid rs

/-- The `SELECT` of `ScheduleTasksForStep`: resources whose name is in the
step's inputs and for which no `(stepID, r.id)` task exists. -/
def unconsumedFor (db : DB) (sid : Nat) (inputs : List String) : List ResourceRow :=
  db.resources.filter (fun r =>
    inputs.contains r.name &&
      !(db.tasks.any (fun t => t.stepId == sid && t.inputResourceId == some r.id)))

/-- Go `ScheduleTasksForStep` (part_001 lines 748-797): look the step up (a
missing row makes the Go code dereference nil, modelled as `none`), return
0 when the step has no inputs, otherwise insert one task per unconsumed
matching resource and return the number inserted. -/
def scheduleTasksForStep (db : DB) (sid : Nat) : Option (Nat × DB) :=
  match getStep db sid with
  | none => none
  | some step =>
    if step.inputs = [] then some (0, db)
    else
      let nts := newTasksFor db.nextTaskId sid (unconsumedFor db sid step.inputs)
      some ((unconsumedFor db sid step.inputs).length,
        { db with
          tasks := db.tasks ++ nts
          nextTaskId := db.nextTaskId + nts.length })

theorem mem_newTasksFor {r : ResourceRow} {rs : List ResourceRow}
    (sid : Nat) (h : r ∈ rs) :
    ∀ nextId, ∃ t ∈ newTasksFor nextId sid rs,
      t.stepId = sid ∧ t.inputResourceId = some r.id := by
  induction rs with
  | nil => cases h
  | cons a rs ih =>
    intro nextId
    rcases List.mem_cons.mp h with rfl | h'
    · exact ⟨⟨nextId, sid, some r.id, false, none⟩, List.mem_cons_self _ _, rfl, rfl⟩
    · obtain ⟨t, ht, hts, htr⟩ := ih h' (nextId + 1)
      exact ⟨t, List.mem_cons_of_mem _ ht, hts, htr⟩

theorem unconsumedFor_append_newTasks (db db' : DB) (nid sid : Nat)
    (inputs : List String)
    (hres : db'.resources = db.resources)
    (htasks : db'.tasks = db.tasks ++ newTasksFor nid sid (unconsumedFor db sid inputs)) :
    unconsumedFor db' sid inputs = [] := by
  unfold unconsumedFor
  rw [hres, htasks]
  apply List.filter_eq_nil_iff.mpr
  intro r hr
  cases hc : inputs.contains r.name with
  | false => simp [hc]
  | true =>
    cases hany : db.tasks.any
        (fun t => t.stepId == sid && t.inputResourceId == some r.id) with
    | true => simp [hc, List.any_append, hany]
    | false =>
      have hmem : r ∈ unconsumedFor db sid inputs :=
        List.mem_filter.mpr ⟨hr, by rw [hc, hany]; rfl⟩
      obtain ⟨t, ht, hts, htr⟩ := mem_newTasksFor sid hmem nid
      have hnew : (newTasksFor nid sid (unconsumedFor db sid inputs)).any
          (fun t => t.stepId == sid && t.inputResourceId == some r.id) = true :=
        List.any_eq_true.mpr ⟨t, ht, by simp [hts, htr]⟩
      simp [hc, List.any_append, hnew]

/-- C2.  `ScheduleTasksForStep` is idempotent: if a call returns `n` and no
resources are created in between, an immediately repeated call inserts no
task and returns 0, because the first call created a `(step, resource)`
task for every previously unconsumed matching resource. -/
theorem C2_schedule_idempotent (db : DB) (sid n : Nat) (db' : DB)
    (h : scheduleTasksForStep db sid = some (n, db')) :
    (scheduleTasksForStep db' sid).map Prod.fst = some 0 := by
  unfold scheduleTasksForStep at h
  split at h
  next hs => cases h
  next step hs =>
    split at h
    next hinp =>
      simp only [Option.some.injEq, Prod.mk.injEq] at h
      obtain ⟨_, hdb⟩ := h
      subst hdb
      simp [scheduleTasksForStep, hs, hinp]
    next hinp =>
      simp only [Option.some.injEq, Prod.mk.injEq] at h
      obtain ⟨hn, hdb⟩ := h
      have hsteps : db'.steps = db.steps := by rw [← hdb]
      have hs' : getStep db' sid = some step := by
        unfold getStep
        rw [hsteps]
        exact hs
      have hempty : unconsumedFor db' sid step.inputs = [] :=
        unconsumedFor_append_newTasks db db' db.nextTaskId sid step.inputs
          (by rw [← hdb]) (by rw [← hdb])
      simp [scheduleTasksForStep, hs', hinp, hempty, newTasksFor]

/-- A one-step, one-resource database used to witness C2. -/
def c2db : DB :=
  { steps := [⟨1, "b", "cat", false, none, ["b"], 1⟩]
    resources := [⟨1, "b", "h1"⟩]
    tasks := []
    nextStepId := 2
    nextResourceId := 2
    nextTaskId := 1 }

/-- The state after the first `ScheduleTasksForStep` call on `c2db`. -/
def c2dbAfter : DB :=
  { c2db with
    tasks := [⟨1, 1, some 1, false, none⟩]
    nextTaskId := 2 }

/-- Witness for C2 at a concrete database: the first call inserts one task,
the second returns 0. -/
theorem C2_schedule_idempotent_witness :
    (scheduleTasksForStep c2dbAfter 1).map Prod.fst = some 0 :=
  C2_schedule_idempotent c2db 1 1 c2dbAfter (by decide)

/-- Go `UpdateTaskStatus`: `UPDATE task SET processed = ?, error = ? WHERE id = ?`. -/
def updateTaskStatus (db : DB) (id : Nat) (p : Bool) (e : Option String) : DB :=
  { db with
    tasks := db.tasks.map fun t =>
      if t.id == id then { t with processed := p, error := e } else t }

/-- The first row of `GetUnprocessedTasks(stepID)` (`WHERE step_id = ? AND
processed = 0 ORDER BY id`); the table list is kept in id order. -/
def firstUnprocessed (db : DB) (sid : Nat) : Option TaskRow :=
  (db.tasks.filter fun t => t.stepId == sid && t.processed == false).head?

/-- Go `Pipeline.Seed` (part_007 lines 175-216): resolve the start step (the
Go code panics when there is none, modelled as `none`); execute the first
unprocessed task of that step if one exists, otherwise insert a fresh task
with NULL `input_resource_id` and execute it.  Execution is
`ExecuteTask`, whose database effect is `UpdateTaskStatus(id, true, err)`;
the seed script's own emissions arrive through separate operations, and the
success path (`error = NULL`) is used here. -/
def seed (db : DB) : Option DB :=
  match getStartingStep db.steps with
  | none => none
  | some st =>
    match firstUnprocessed db st.id with
    | some t => some (updateTaskStatus db t.id true none)
    | none =>
      match createTask db st.id none false none with
      | none => none
      | some (tid, db1) => some (updateTaskStatus db1 tid true none)

theorem updateTaskStatus_inputResourceIds (db : DB) (id : Nat) (p : Bool)
    (e : Option String) :
    (updateTaskStatus db id p e).tasks.map (fun t => t.inputResourceId) =
      db.tasks.map (fun t => t.inputResourceId) := by
  unfold updateTaskStatus
  rw [List.map_map]
  apply List.map_congr_left
  intro a _
  show (if (a.id == id) = true then
      ({ a with processed := p, error := e } : TaskRow) else a).inputResourceId =
    a.inputResourceId
  split <;> rfl

/-- A database whose start step has exactly one task, already processed. -/
def c5db : DB :=
  { steps := [⟨1, "a", "echo hi", true, none, [], 1⟩]
    resources := []
    tasks := [⟨1, 1, none, true, none⟩]
    nextStepId := 2
    nextResourceId := 1
    nextTaskId := 2 }

/-- C5 counterexample: the claim says that when a task row already exists
for the start step (here: one processed task) seeding creates no task, but
`Seed` finds no unprocessed task and inserts a second NULL-input task. -/
theorem C5_seed_counterexample :
    c5db.tasks.length = 1 ∧ (c5db.tasks.all fun t => t.processed) = true ∧
      (seed c5db).map (fun d => d.tasks.length) = some 2 := by
  decide

/-- C5 amended: `Seed` creates a task (exactly one, with NULL
`input_resource_id`) iff the start step has no *unprocessed* task; when an
unprocessed task exists it executes that one instead and creates nothing.
In particular a start step whose tasks are all processed is re-seeded. -/
theorem C5_seed_amended (db : DB) (st : StepRow)
    (hst : getStartingStep db.steps = some st) :
    (firstUnprocessed db st.id = none →
      (seed db).map (fun d => d.tasks.length) = some (db.tasks.length + 1) ∧
      (seed db).map (fun d => d.tasks.map fun t => t.inputResourceId) =
        some ((db.tasks.map fun t => t.inputResourceId) ++ [none])) ∧
    (firstUnprocessed db st.id ≠ none →
      (seed db).map (fun d => d.tasks.length) = some db.tasks.length) := by
  constructor
  · intro hnone
    have hconf : taskConflict db.tasks st.id none = false := rfl
    have hseed : seed db = some (updateTaskStatus
        { db with
          tasks := db.tasks ++ [⟨db.nextTaskId, st.id, none, false, none⟩]
          nextTaskId := db.nextTaskId + 1 } db.nextTaskId true none) := by
      simp [seed, hst, hnone, createTask, hconf]
    rw [hseed]
    constructor
    · simp [updateTaskStatus]
    · simp only [Option.map_some', Option.some.injEq]
      rw [updateTaskStatus_inputResourceIds]
      simp
  · intro hne
    cases ht : firstUnprocessed db st.id with
    | none => exact absurd ht hne
    | some t => simp [seed, hst, ht, updateTaskStatus]

/-- Witness for C5 amended at `c5db`: all tasks are processed, so seeding
adds exactly one NULL-input task. -/
theorem C5_seed_amended_witness :
    (seed c5db).map (fun d => d.tasks.length) = some (c5db.tasks.length + 1) :=
  ((C5_seed_amended c5db ⟨1, "a", "echo hi", true, none, [], 1⟩ (by decide)).1
    (by decide)).1

/-- The executor's error value for a child exit code: `runScript`
(executor.go lines 102-147) wraps the non-zero `cmd.Wait` error
("exit status N") as "script execution failed: ..."; exit 0 yields no
error. -/
def runScriptResult (exitCode : Nat) : Option String :=
  if exitCode == 0 then none
  else some ("script execution failed: exit status " ++ toString exitCode)

/-- Go `Pipeline.ExecuteTask` (part_007 lines 149-173): resolve the step (the
Go code dereferences nil when it is missing, modelled `none`), run the
executor, then `UpdateTaskStatus(t.ID, true, errorMsg)` where `errorMsg`
is the executor's error string, if any.  The script's filesystem output is
handled elsewhere; execution failure never propagates beyond the task. -/
def executeTask (db : DB) (t : TaskRow) (exitCode : Nat) : Option DB :=
  match getStep db t.stepId with
  | none => none
  | some _ => some (updateTaskStatus db t.id true (runScriptResult exitCode))

/-- C6.  When the child script exits non-zero, `ExecuteTask` marks the
task processed and records the executor's error string on its row; the
call returns normally, so the pipeline run continues. -/
theorem C6_error_recorded (db db' : DB) (t : TaskRow) (exitCode : Nat)
    (hrun : executeTask db t exitCode = some db')
    (hmem : t ∈ db.tasks) (hez : exitCode ≠ 0) :
    (∃ r ∈ db'.tasks, r.id = t.id) ∧
    ∀ r ∈ db'.tasks, r.id = t.id →
      r.processed = true ∧
      r.error = some ("script execution failed: exit status " ++ toString exitCode) := by
  unfold executeTask at hrun
  split at hrun
  · cases hrun
  · have hez' : (exitCode == 0) = false := by simpa using hez
    have herr : runScriptResult exitCode =
        some ("script execution failed: exit status " ++ toString exitCode) := by
      simp [runScriptResult, hez']
    simp only [Option.some.injEq] at hrun
    subst hrun
    constructor
    · refine ⟨(fun x =>
        if (x.id == t.id) = true then
          ({ x with processed := true, error := runScriptResult exitCode } : TaskRow)
        else x) t, List.mem_map_of_mem _ hmem, ?_⟩
      simp
    · intro r hr hid
      obtain ⟨a, ha, hfa⟩ := List.mem_map.mp hr
      by_cases hcase : (a.id == t.id) = true
      · rw [if_pos hcase] at hfa
        subst hfa
        exact ⟨rfl, herr⟩
      · rw [if_neg hcase] at hfa
        subst hfa
        exact absurd (by simpa using hid) hcase

/-- A database with one step and one pending task, used to witness C6. -/
def c6db : DB :=
  { steps := [⟨1, "a", "exit 2", true, none, [], 1⟩]
    resources := []
    tasks := [⟨1, 1, none, false, none⟩]
    nextStepId := 2
    nextResourceId := 1
    nextTaskId := 2 }

/-- The state after executing `c6db`'s task with exit code 2. -/
def c6dbAfter : DB :=
  { c6db with tasks := [⟨1, 1, none, true, some "script execution failed: exit status 2"⟩] }

/-- Witness for C6 at a concrete database and exit code 2. -/
theorem C6_error_recorded_witness :
    (∃ r ∈ c6dbAfter.tasks, r.id = 1) ∧
    ∀ r ∈ c6dbAfter.tasks, r.id = 1 →
      r.processed = true ∧
      r.error = some ("script execution failed: exit status " ++ toString 2) :=
  C6_error_recorded c6db c6dbAfter ⟨1, 1, none, false, none⟩ 2 (by decide)
    (by decide) (by decide)

/-- Go `GetTaintedSteps` (part_001 lines 388-434): the SQL self-join yields
every step for which some step of the same name with a strictly higher
version and a differing script or inputs exists (`GROUP BY s1.id`
deduplicates; the stored `inputs` JSON text comparison is list equality
because the encoding is canonical). -/
def getTaintedSteps (steps : List StepRow) : List StepRow :=
  steps.filter fun s1 =>
    steps.any fun s2 =>
      s1.name == s2.name && decide (s1.version < s2.version) &&
        (s1.script != s2.script || s1.inputs != s2.inputs)

/-- C8 amended.  `GetTaintedSteps` yields exactly the steps for which a
step of the same name, higher version and differing script or inputs
exists (invariant I6); this is *not* always the set of non-latest steps
that differ from the latest row. -/
theorem C8_tainted_amended (steps : List StepRow) (s : StepRow) :
    s ∈ getTaintedSteps steps ↔
      s ∈ steps ∧ ∃ s2 ∈ steps, s.name = s2.name ∧ s.version < s2.version ∧
        (s.script ≠ s2.script ∨ s.inputs ≠ s2.inputs) := by
  unfold getTaintedSteps
  rw [List.mem_filter]
  simp [List.any_eq_true, and_assoc]

/-- Three versions of step "a": the first and third share script and
inputs, the middle one differs. -/
def c8s1 : StepRow := ⟨1, "a", "A", false, none, ["i"], 1⟩

def c8s2 : StepRow := ⟨2, "a", "B", false, none, ["i"], 2⟩

def c8s3 : StepRow := ⟨3, "a", "A", false, none, ["i"], 3⟩

def c8steps : List StepRow := [c8s1, c8s2, c8s3]

/-- C8 counterexample: version 1 of "a" is reported tainted although its
script and inputs are identical to the latest row (version 3), because the
intermediate version 2 differs; so "tainted" is not "differs from the
latest row of the same name". -/
theorem C8_tainted_counterexample :
    c8s1 ∈ getTaintedSteps c8steps ∧
    getStepByNameM c8steps "a" = some c8s3 ∧
    c8s1.script = c8s3.script ∧ c8s1.inputs = c8s3.inputs := by
  decide

theorem foldl_pickMaxVersion_mem {l : List StepRow} :
    ∀ {acc : Option StepRow} {x : StepRow},
      l.foldl pickMaxVersion acc = some x → x ∈ l ∨ acc = some x := by
  induction l with
  | nil => intro acc x h; exact Or.inr h
  | cons a l ih =>
    intro acc x h
    rcases ih h with hm | hacc
    · exact Or.inl (List.mem_cons_of_mem _ hm)
    · cases acc with
      | none =>
        simp only [pickMaxVersion, Option.some.injEq] at hacc
        exact Or.inl (hacc ▸ List.mem_cons_self a l)
      | some b =>
        simp only [pickMaxVersion] at hacc
        split at hacc
        · simp only [Option.some.injEq] at hacc
          exact Or.inl (hacc ▸ List.mem_cons_self a l)
        · exact Or.inr hacc

theorem maxByVersion_mem {l : List StepRow} {x : StepRow}
    (h : maxByVersion l = some x) : x ∈ l := by
  rcases foldl_pickMaxVersion_mem h with hm | hc
  · exact hm
  · cases hc

/-- Go `CreateStep` looks the latest row with the same *name and script* up:
`SELECT id, inputs FROM step WHERE name = ? AND script = ? ORDER BY version
DESC LIMIT 1`. -/
def latestByNameScript (steps : List StepRow) (name script : String) : Option StepRow :=
  maxByVersion (steps.filter fun s => s.name == name && s.script == script)

/-- Go `SELECT MAX(version) FROM step WHERE name = ?`, with 0 for no rows. -/
def maxVersionByName (steps : List StepRow) (name : String) : Nat :=
  steps.foldl (fun m s => if s.name == name then max m s.version else m) 0

/-- An incoming manifest step (no id or version yet). -/
structure StepInput where
  name : String
  script : String
  isStart : Bool
  parallel : Option Nat
  inputs : List String
  deriving DecidableEq

/-- Go `UPDATE step SET parallel = ?, is_start = ? WHERE id = ?`. -/
def updateStepFlags (steps : List StepRow) (id : Nat) (isStart : Bool)
    (parallel : Option Nat) : List StepRow :=
  steps.map fun s =>
    if s.id == id then { s with isStart := isStart, parallel := parallel } else s

/-- The insert branch of `CreateStep`: a fresh row whose version is
`MAX(version) + 1` for the name (1 when no row exists). -/
def insertNewStep (db : DB) (inp : StepInput) : Nat × DB :=
  (db.nextStepId,
    { db with
      steps := db.steps ++
        [⟨db.nextStepId, inp.name, inp.script, inp.isStart, inp.parallel,
          inp.inputs, maxVersionByName db.steps inp.name + 1⟩]
      nextStepId := db.nextStepId + 1 })

/-- Go `CreateStep` (part_001 lines 185-250): find the latest row with the
same name *and script*; when its inputs also match, update
`is_start`/`parallel` on that row and return its id; otherwise insert a
new row with version `MAX(version)+1` for the name. -/
def createStep (db : DB) (inp : StepInput) : Nat × DB :=
  match latestByNameScript db.steps inp.name inp.script with
  | some ex =>
    if ex.inputs = inp.inputs then
      (ex.id, { db with steps := updateStepFlags db.steps ex.id inp.isStart inp.parallel })
    else insertNewStep db inp
  | none => insertNewStep db inp

/-- Modelled from the claim/spec wording of `UpsertStep` (§4.2): compare
the incoming step against the latest-version row *for the name*; update
`is_start`/`parallel` on it when both script and inputs are identical,
otherwise insert a new `MAX(version)+1` row. -/
def upsertStepClaim (db : DB) (inp : StepInput) : Nat × DB :=
  match getStepByNameM db.steps inp.name with
  | some latest =>
    if latest.script = inp.script ∧ latest.inputs = inp.inputs then
      (latest.id,
        { db with steps := updateStepFlags db.steps latest.id inp.isStart inp.parallel })
    else insertNewStep db inp
  | none => insertNewStep db inp

/-- Two versions of step "a": version 1 with script "X", version 2 with
script "Y". -/
def c4db : DB :=
  { steps := [⟨1, "a", "X", false, none, [], 1⟩, ⟨2, "a", "Y", false, none, [], 2⟩]
    resources := []
    tasks := []
    nextStepId := 3
    nextResourceId := 1
    nextTaskId := 1 }

/-- Re-upserting the version-1 step body. -/
def c4inp : StepInput := ⟨"a", "X", false, none, []⟩

/-- C4 counterexample: the latest row for name "a" (version 2, script "Y")
differs from the incoming step, so the claim requires inserting version 3;
`CreateStep` instead matches the older version-1 row (same name and
script) and returns its id without inserting anything. -/
theorem C4_upsert_counterexample :
    (createStep c4db c4inp).1 = 1 ∧
    (createStep c4db c4inp).2.steps.length = 2 ∧
    (upsertStepClaim c4db c4inp).1 = 3 ∧
    (upsertStepClaim c4db c4inp).2.steps.length = 3 := by
  decide

theorem version_le_maxVersionByName {steps : List StepRow} {name : String}
    {r : StepRow} (hr : r ∈ steps) (hn : r.name = name) :
    ∀ m, r.version ≤ steps.foldl (fun m s => if s.name == name then max m s.version else m) m := by
  have hmono : ∀ (l : List StepRow) (m : Nat),
      m ≤ l.foldl (fun m s => if s.name == name then max m s.version else m) m := by
    intro l
    induction l with
    | nil => intro m; exact Nat.le_refl m
    | cons a l ih =>
      intro m
      refine Nat.le_trans ?_ (ih _)
      by_cases ha : a.name == name
      · simp only [List.foldl]
        rw [if_pos ha]
        exact Nat.le_max_left _ _
      · simp only [List.foldl]
        rw [if_neg ha]
  induction steps with
  | nil => cases hr
  | cons a l ih =>
    intro m
    rcases List.mem_cons.mp hr with rfl | hr'
    · simp only [List.foldl]
      rw [if_pos (by simp [hn])]
      exact Nat.le_trans (Nat.le_max_right _ _) (hmono l _)
    · simp only [List.foldl]
      exact ih hr' _

/-- C4 amended.  `CreateStep` either (a) returns the id of an existing row
with the incoming name, script and inputs — the latest row with the same
name *and script*, which need not be the latest version for the name —
after updating only its `is_start`/`parallel` flags, or (b) appends a
fresh row whose version is `MAX(version)+1` for the name, strictly larger
than every existing version of that name. -/
theorem C4_upsert_amended (db : DB) (inp : StepInput) :
    (∃ r ∈ db.steps, r.id = (createStep db inp).1 ∧ r.name = inp.name ∧
        r.script = inp.script ∧ r.inputs = inp.inputs ∧
        (createStep db inp).2.steps =
          updateStepFlags db.steps r.id inp.isStart inp.parallel ∧
        (createStep db inp).2.nextStepId = db.nextStepId) ∨
    ((createStep db inp).1 = db.nextStepId ∧
      (createStep db inp).2.steps = db.steps ++
        [⟨db.nextStepId, inp.name, inp.script, inp.isStart, inp.parallel,
          inp.inputs, maxVersionByName db.steps inp.name + 1⟩] ∧
      ∀ r ∈ db.steps, r.name = inp.name →
        r.version < maxVersionByName db.steps inp.name + 1) := by
  have hins : ∀ r ∈ db.steps, r.name = inp.name →
      r.version < maxVersionByName db.steps inp.name + 1 := by
    intro r hr hn
    exact Nat.lt_succ_of_le (version_le_maxVersionByName hr hn 0)
  cases hlb : latestByNameScript db.steps inp.name inp.script with
  | none =>
    have hcs : createStep db inp = insertNewStep db inp := by
      simp [createStep, hlb]
    rw [hcs]
    exact Or.inr ⟨rfl, rfl, hins⟩
  | some ex =>
    have hmem := maxByVersion_mem hlb
    have hfil := List.mem_filter.mp hmem
    have hne : ex.name = inp.name ∧ ex.script = inp.script := by
      have := hfil.2
      simp only [Bool.and_eq_true, beq_iff_eq] at this
      exact this
    by_cases heq : ex.inputs = inp.inputs
    · have hcs : createStep db inp =
          (ex.id, { db with steps := updateStepFlags db.steps ex.id inp.isStart inp.parallel }) := by
        simp [createStep, hlb, heq]
      rw [hcs]
      exact Or.inl ⟨ex, hfil.1, rfl, hne.1, hne.2, heq, rfl, rfl⟩
    · have hcs : createStep db inp = insertNewStep db inp := by
        simp [createStep, hlb, heq]
      rw [hcs]
      exact Or.inr ⟨rfl, rfl, hins⟩

/-! ## Write-only virtual filesystem (fuse_watcher.go) -/

/-- Result of a FUSE `Open` call. -/
inductive OpenResult where
  | ok
  | eacces
  | erofs
  deriving DecidableEq

/-- The watcher state: the `files` buffer map (an association list for the
Go map), the `closed` flag, and the open-handle count of the wait group. -/
structure FuseState where
  files : List (String × List Nat)
  closed : Bool
  openHandles : Nat
  deriving DecidableEq

/-- Go map assignment `files[name] = fd` with a fresh empty buffer. -/
def setFreshBuffer (files : List (String × List Nat)) (name : String) :
    List (String × List Nat) :=
  (name, []) :: files.filter fun p => p.1 != name

/-- Go `fuseFS.Open` (fuse_watcher.go lines 179-208): refuse when the mount is
closed (`EROFS`); deny read access — `accessMode := flags & 0x3`, denied
only when it equals 0, i.e. `O_RDONLY` — with `EACCES`; otherwise allocate
a fresh empty buffer for the name (O_TRUNC-like) and register an open
handle. -/
def fuseOpen (st : FuseState) (name : String) (flags : Nat) :
    OpenResult × FuseState :=
  if st.closed then (OpenResult.erofs, st)
  else if flags &&& 3 == 0 then (OpenResult.eacces, st)
  else
    (OpenResult.ok,
      { st with
        files := setFreshBuffer st.files name
        openHandles := st.openHandles + 1 })

/-- An open watcher with an existing 3-byte buffer for "f". -/
def c9st : FuseState := ⟨[("f", [1, 2, 3])], false, 0⟩

/-- C9 counterexample: `O_RDWR` (access mode 2) carries read intent, so the
claim requires `EACCES`; the code only denies access mode 0 (`O_RDONLY`)
and opens `O_RDWR` for writing with a fresh truncated buffer. -/
theorem C9_open_counterexample :
    (fuseOpen c9st "f" 2).1 = OpenResult.ok ∧
    (fuseOpen c9st "f" 2).1 ≠ OpenResult.eacces ∧
    (fuseOpen c9st "f" 2).2.files.lookup "f" = some [] := by
  decide

/-- C9 amended.  On an open (non-closed) mount, `Open` returns `EACCES`
exactly for access mode `O_RDONLY` (`flags & 3 == 0`), leaving the state
unchanged; for any other access mode (`O_WRONLY` *or* `O_RDWR`) it
succeeds, installs a fresh empty buffer for the basename and registers one
more open handle. -/
theorem C9_open_amended (st : FuseState) (name : String) (flags : Nat)
    (hcl : st.closed = false) :
    (flags &&& 3 = 0 → fuseOpen st name flags = (OpenResult.eacces, st)) ∧
    (flags &&& 3 ≠ 0 →
      (fuseOpen st name flags).1 = OpenResult.ok ∧
      (fuseOpen st name flags).2.files.lookup name = some [] ∧
      (fuseOpen st name flags).2.openHandles = st.openHandles + 1) := by
  constructor
  · intro h0
    simp [fuseOpen, hcl, h0]
  · intro hn
    have hb : (flags &&& 3 == 0) = false := by
      simpa using hn
    simp [fuseOpen, hcl, hb, setFreshBuffer, List.lookup]

/-- An empty open watcher used to witness C9. -/
def c9stw : FuseState := ⟨[], false, 0⟩

/-- Witness for C9 amended: opening "g" with `O_WRONLY` (flags 1) on an
open mount succeeds and installs a fresh buffer. -/
theorem C9_open_amended_witness :
    (fuseOpen c9stw "g" 1).1 = OpenResult.ok ∧
    (fuseOpen c9stw "g" 1).2.files.lookup "g" = some [] ∧
    (fuseOpen c9stw "g" 1).2.openHandles = c9stw.openHandles + 1 :=
  (C9_open_amended c9stw "g" 1 rfl).2 (by decide)

/-! ## The older `input_task_id` schema (db.go) and the `run` driver
(part_004), which the `migrate-tainted` claim is about. -/

structure OldStepRow where
  id : Nat
  name : String
  script : String
  isStart : Bool
  parallel : Option Nat
  version : Nat
  deriving DecidableEq

structure OldTaskRow where
  id : Nat
  objectHash : String
  stepId : Option Nat
  inputTaskId : Option Nat
  processed : Bool
  error : Option String
  deriving DecidableEq

structure OldDB where
  steps : List OldStepRow
  tasks : List OldTaskRow
  nextTaskId : Nat
  deriving DecidableEq

/-- Go `GetStep` on the old schema. -/
def getOldStepById (db : OldDB) (id : Nat) : Option OldStepRow :=
  db.steps.find? fun s => s.id == id

/-- Go `GetStepByName` on the old schema (`ORDER BY version DESC LIMIT 1`). -/
def latestOldByName (steps : List OldStepRow) (name : String) : Option OldStepRow :=
  (steps.filter fun s => s.name == name).foldl
    (fun acc s =>
      match acc with
      | none => some s
      | some b => if s.version > b.version then some s else acc)
    none

/-- Go `GetTaintedSteps` (db.go lines 300-340): steps with a same-name,
higher-version row whose script differs (the old schema has no `inputs`
column). -/
def getTaintedStepsOld (steps : List OldStepRow) : List OldStepRow :=
  steps.filter fun s1 =>
    steps.any fun s2 =>
      s1.name == s2.name && decide (s1.version < s2.version) && s1.script != s2.script

/-- The copies inserted by `MigrateTaintedStepTasks`: same `object_hash`
and `input_task_id`, re-targeted at the latest step, `processed = 0`,
`error = NULL`. -/
def copyTasksTo (nextId latestId : Nat) : List OldTaskRow → List OldTaskRow
  | [] => []
  | t :: ts =>
    ⟨nextId, t.objectHash, some latestId, t.inputTaskId, false, none⟩ ::
      copyTasksTo (nextId + 1) latestId ts

/-- Go `MigrateTaintedStepTasks` (db.go lines 468-505): copy every task of the
tainted step onto the latest version of the same name; the old `task` table
has no uniqueness constraint, so the inserts always succeed.  Returns the
number of copied rows. -/
def migrateTaintedStepTasks (db : OldDB) (taintedID : Nat) : Option (Nat × OldDB) :=
  match getOldStepById db taintedID with
  | none => none
  | some tainted =>
    match latestOldByName db.steps tainted.name with
    | none => none
    | some latest =>
      let copies := copyTasksTo db.nextTaskId latest.id
        (db.tasks.filter fun t => t.stepId == some taintedID)
      some (copies.length,
        { db with
          tasks := db.tasks ++ copies
          nextTaskId := db.nextTaskId + copies.length })

/-- The taint phase of `run` (part_004 lines 59-68): on *every* `run`
invocation, iterate `GetTaintedSteps` and call `MigrateTaintedStepTasks`
for each (migration only mutates tasks, so folding over the initial step
list is exact; the Go code panics on error, modelled by keeping the state). -/
def runTaintPhase (db : OldDB) : OldDB :=
  (getTaintedStepsOld db.steps).foldl
    (fun d s =>
      match migrateTaintedStepTasks d s.id with
      | none => d
      | some (_, d') => d')
    db

/-- A database with a tainted step: "a" has version 1 (script "X", one
processed task) and version 2 (script "Y", no tasks). -/
def c7db : OldDB :=
  { steps := [⟨1, "a", "X", true, none, 1⟩, ⟨2, "a", "Y", true, none, 2⟩]
    tasks := [⟨1, "h", some 1, none, true, none⟩]
    nextTaskId := 2 }

/-- C7.  Evaluating the `run` driver at a database holding a tainted step:
before `run` the current step (id 2) has no tasks, and the taint phase that
`run` executes unconditionally copies the tainted step's task onto it —
taint migration does happen during `run`, with no `migrate-tainted` command
involved (no such flag exists in `main`). -/
theorem C7_run_migrates_during_run :
    (c7db.tasks.filter fun t => t.stepId == some 2).length = 0 ∧
    ((runTaintPhase c7db).tasks.filter fun t =>
        t.stepId == some 2 && t.processed == false).length = 1 := by
  decide

/-! ## Task-pair uniqueness across operation sequences (claim C3) -/

/-- Sequential per-row inserts of `CreateTasksFromResources` (part_001
lines 699-743): `INSERT ... ON CONFLICT(step_id, input_resource_id) DO
NOTHING` inside one transaction; each insert sees the rows inserted before
it. -/
def createTasksFromResourcesAux (tasks : List TaskRow) (nextId sid : Nat) :
    List Nat → List TaskRow × Nat
  | [] => (tasks, nextId)
  | rid :: rest =>
    if taskConflict tasks sid (some rid) then
      createTasksFromResourcesAux tasks nextId sid rest
    else
      createTasksFromResourcesAux
        (tasks ++ [⟨nextId, sid, some rid, false, none⟩]) (nextId + 1) sid rest

/-- Go `CreateTasksFromResources`: state effect only (the returned ids are not
needed for the invariant claims). -/
def createTasksFromResources (db : DB) (sid : Nat) (rids : List Nat) : DB :=
  { db with
    tasks := (createTasksFromResourcesAux db.tasks db.nextTaskId sid rids).1
    nextTaskId := (createTasksFromResourcesAux db.tasks db.nextTaskId sid rids).2 }

/-- Sequential plain inserts of `BatchInsertTasks` (part_001 lines
654-694); a unique-constraint violation aborts (`none`) and the
transaction is rolled back. -/
def batchInsertTasksAux (tasks : List TaskRow) (nextId : Nat) :
    List (Nat × Option Nat × Bool × Option String) → Option (List TaskRow × Nat)
  | [] => some (tasks, nextId)
  | (sid, r, p, e) :: rest =>
    if taskConflict tasks sid r then none
    else batchInsertTasksAux (tasks ++ [⟨nextId, sid, r, p, e⟩]) (nextId + 1) rest

/-- Go `BatchInsertTasks`: all-or-nothing. -/
def batchInsertTasks (db : DB)
    (specs : List (Nat × Option Nat × Bool × Option String)) : DB :=
  match batchInsertTasksAux db.tasks db.nextTaskId specs with
  | none => db
  | some (ts, nid) => { db with tasks := ts, nextTaskId := nid }

/-- Go `CreateResource` (part_001 lines 470-490): insert-on-conflict-do-nothing
keyed by `(name, object_hash)`, then select the id. -/
def createResource (db : DB) (name hash : String) : Nat × DB :=
  match db.resources.find? (fun r => r.name == name && r.objectHash == hash) with
  | some r => (r.id, db)
  | none =>
    (db.nextResourceId,
      { db with
        resources := db.resources ++ [⟨db.nextResourceId, name, hash⟩]
        nextResourceId := db.nextResourceId + 1 })

/-- Modelled from the spec (§4.2 `MigrateTaintedTasks`): the resource-schema
sources contain no taint migration (only the old `input_task_id` schema has
`MigrateTaintedStepTasks`), and the spec says it "copies every task row
from the tainted step to the latest step of the same name with
`processed=false`, `error=null`, preserving `input_resource_id`".  Under
the schema's unique constraint a conflicting copy aborts the statement. -/
def migrateTaintedTasksSpec (db : DB) (taintedID : Nat) : DB :=
  match getStep db taintedID with
  | none => db
  | some tainted =>
    match getStepByNameM db.steps tainted.name with
    | none => db
    | some latest =>
      match batchInsertTasksAux db.tasks db.nextTaskId
          ((db.tasks.filter fun t => t.stepId == taintedID).map
            fun t => (latest.id, t.inputResourceId, false, (none : Option String))) with
      | none => db
      | some (ts, nid) => { db with tasks := ts, nextTaskId := nid }

/-- The task-mutating metadata-store operations named by claim C3. -/
inductive DBOp where
  | newTask (sid : Nat) (r : Option Nat) (p : Bool) (e : Option String)
  | newTasksFromResources (sid : Nat) (rids : List Nat)
  | batchTasks (specs : List (Nat × Option Nat × Bool × Option String))
  | schedule (sid : Nat)
  | seedStart
  | newResource (name hash : String)
  | migrate (taintedID : Nat)
  | setTaskStatus (id : Nat) (p : Bool) (e : Option String)

/-- Apply one operation.  Failing operations (constraint errors, missing
rows) leave the store unchanged: in Go they panic or are logged and
skipped, and either way no row lands. -/
def applyOp (db : DB) : DBOp → DB
  | .newTask sid r p e =>
    match createTask db sid r p e with
    | none => db
    | some (_, d) => d
  | .newTasksFromResources sid rids => createTasksFromResources db sid rids
  | .batchTasks specs => batchInsertTasks db specs
  | .schedule sid =>
    match scheduleTasksForStep db sid with
    | none => db
    | some (_, d) => d
  | .seedStart => (seed db).getD db
  | .newResource n h => (createResource db n h).2
  | .migrate tid => migrateTaintedTasksSpec db tid
  | .setTaskStatus id p e => updateTaskStatus db id p e

/-- Apply a sequence of operations. -/
def applyOps (db : DB) (ops : List DBOp) : DB := ops.foldl applyOp db

/-- Two task rows are compatible when they do not collide on a
`(step_id, non-NULL input_resource_id)` pair. -/
def TaskCompat (t1 t2 : TaskRow) : Prop :=
  ¬(t1.stepId = t2.stepId ∧ t1.inputResourceId ≠ none ∧
    t1.inputResourceId = t2.inputResourceId)

instance : DecidablePred fun p : TaskRow × TaskRow => TaskCompat p.1 p.2 :=
  fun _ => by unfold TaskCompat; infer_instance

/-- The amended claim-C3 invariant: no two task rows share a
`(step_id, input_resource_id)` pair with a non-NULL resource id. -/
def TasksUnique (ts : List TaskRow) : Prop := ts.Pairwise TaskCompat

/-- The inductive invariant: task-pair uniqueness plus well-formedness of
resource ids (distinct, and below the autoincrement counter). -/
def Inv (db : DB) : Prop :=
  TasksUnique db.tasks ∧
  db.resources.Pairwise (fun r1 r2 => r1.id ≠ r2.id) ∧
  (∀ r ∈ db.resources, r.id < db.nextResourceId)

theorem taskCompat_of_conflict_false {ts : List TaskRow} {sid : Nat}
    {r : Option Nat} (h : taskConflict ts sid r = false) {t : TaskRow}
    (ht : t ∈ ts) (nid : Nat) (p : Bool) (e : Option String) :
    TaskCompat t ⟨nid, sid, r, p, e⟩ := by
  rintro ⟨h1, h2, h3⟩
  cases hr : r with
  | none =>
    rw [hr] at h3
    exact h2 h3
  | some rid =>
    rw [hr] at h h3
    have h' : (ts.any fun t => t.stepId == sid && t.inputResourceId == some rid) = false := h
    have hany : (ts.any fun t => t.stepId == sid && t.inputResourceId == some rid) = true :=
      List.any_eq_true.mpr ⟨t, ht, by simp [h1, h3]⟩
    rw [h'] at hany
    cases hany

theorem tasksUnique_append_single {ts : List TaskRow} {t' : TaskRow}
    (h : TasksUnique ts) (hc : ∀ t ∈ ts, TaskCompat t t') :
    TasksUnique (ts ++ [t']) := by
  apply List.pairwise_append.mpr
  refine ⟨h, List.pairwise_singleton _ _, ?_⟩
  intro a ha b hb
  rw [List.mem_singleton] at hb
  subst hb
  exact hc a ha

theorem tasksUnique_insert_noConflict {ts : List TaskRow} {sid : Nat}
    {r : Option Nat} (hconf : taskConflict ts sid r = false)
    (h : TasksUnique ts) (nid : Nat) (p : Bool) (e : Option String) :
    TasksUnique (ts ++ [⟨nid, sid, r, p, e⟩]) :=
  tasksUnique_append_single h fun _ ht =>
    taskCompat_of_conflict_false hconf ht nid p e

theorem tasksUnique_createTasksFromResourcesAux {sid : Nat} :
    ∀ (rids : List Nat) (ts : List TaskRow) (nid : Nat), TasksUnique ts →
      TasksUnique (createTasksFromResourcesAux ts nid sid rids).1 := by
  intro rids
  induction rids with
  | nil => intro ts nid h; exact h
  | cons rid rest ih =>
    intro ts nid h
    unfold createTasksFromResourcesAux
    cases hc : taskConflict ts sid (some rid) with
    | true =>
      simp only [if_pos rfl]
      exact ih ts nid h
    | false =>
      simp only [Bool.false_eq_true, if_false]
      exact ih _ _ (tasksUnique_insert_noConflict hc h nid false none)

theorem tasksUnique_batchInsertTasksAux :
    ∀ (specs : List (Nat × Option Nat × Bool × Option String))
      (ts : List TaskRow) (nid : Nat) (res : List TaskRow × Nat),
      TasksUnique ts → batchInsertTasksAux ts nid specs = some res →
      TasksUnique res.1 := by
  intro specs
  induction specs with
  | nil =>
    intro ts nid res h heq
    simp only [batchInsertTasksAux, Option.some.injEq] at heq
    rw [← heq]
    exact h
  | cons spec rest ih =>
    intro ts nid res h heq
    obtain ⟨sid, r, p, e⟩ := spec
    unfold batchInsertTasksAux at heq
    cases hc : taskConflict ts sid r with
    | true => rw [hc] at heq; cases heq
    | false =>
      rw [hc] at heq
      simp only [Bool.false_eq_true, if_false] at heq
      exact ih _ _ _ (tasksUnique_insert_noConflict hc h nid p e) heq

theorem newTasksFor_fields {sid : Nat} {rs : List ResourceRow} {b : TaskRow} :
    ∀ {nid : Nat}, b ∈ newTasksFor nid sid rs →
      b.stepId = sid ∧ ∃ r ∈ rs, b.inputResourceId = some r.id := by
  induction rs with
  | nil => intro nid hb; cases hb
  | cons a rs ih =>
    intro nid hb
    rcases List.mem_cons.mp hb with rfl | hb'
    · exact ⟨rfl, a, List.mem_cons_self a rs, rfl⟩
    · obtain ⟨h1, r, hr, h2⟩ := ih hb'
      exact ⟨h1, r, List.mem_cons_of_mem _ hr, h2⟩

theorem tasksUnique_newTasksFor {sid : Nat} {rs : List ResourceRow}
    (hids : rs.Pairwise fun r1 r2 => r1.id ≠ r2.id) :
    ∀ nid, TasksUnique (newTasksFor nid sid rs) := by
  induction rs with
  | nil => intro _; exact List.Pairwise.nil
  | cons a rs ih =>
    intro nid
    obtain ⟨hhead, htail⟩ := List.pairwise_cons.mp hids
    apply List.pairwise_cons.mpr
    refine ⟨?_, ih htail (nid + 1)⟩
    intro b hb
    obtain ⟨hbs, r, hr, hbr⟩ := newTasksFor_fields hb
    rintro ⟨hc1, hc2, hc3⟩
    rw [hbr] at hc3
    exact hhead r hr (Option.some.inj hc3)

theorem taskCompat_schedule_cross {db : DB} {sid : Nat} {inputs : List String}
    {nid : Nat} {a b : TaskRow} (ha : a ∈ db.tasks)
    (hb : b ∈ newTasksFor nid sid (unconsumedFor db sid inputs)) :
    TaskCompat a b := by
  obtain ⟨hbs, r, hr, hbr⟩ := newTasksFor_fields hb
  rintro ⟨h1, h2, h3⟩
  have hfil := List.mem_filter.mp hr
  have hcond := hfil.2
  rw [Bool.and_eq_true] at hcond
  have hanyf : (db.tasks.any fun t =>
      t.stepId == sid && t.inputResourceId == some r.id) = false := by
    simpa using hcond.2
  have hany : (db.tasks.any fun t =>
      t.stepId == sid && t.inputResourceId == some r.id) = true :=
    List.any_eq_true.mpr ⟨a, ha, by simp [h1.trans hbs, h3.trans hbr]⟩
  rw [hanyf] at hany
  cases hany

theorem tasksUnique_updateTaskStatus {db : DB} (id : Nat) (p : Bool)
    (e : Option String) (h : TasksUnique db.tasks) :
    TasksUnique (updateTaskStatus db id p e).tasks := by
  unfold updateTaskStatus
  refine List.Pairwise.map _ ?_ h
  intro a b hab
  rintro ⟨h1, h2, h3⟩
  apply hab
  have ea1 : (if (a.id == id) = true then
      ({ a with processed := p, error := e } : TaskRow) else a).stepId = a.stepId := by
    split <;> rfl
  have ea2 : (if (a.id == id) = true then
      ({ a with processed := p, error := e } : TaskRow) else a).inputResourceId =
      a.inputResourceId := by
    split <;> rfl
  have eb1 : (if (b.id == id) = true then
      ({ b with processed := p, error := e } : TaskRow) else b).stepId = b.stepId := by
    split <;> rfl
  have eb2 : (if (b.id == id) = true then
      ({ b with processed := p, error := e } : TaskRow) else b).inputResourceId =
      b.inputResourceId := by
    split <;> rfl
  refine ⟨?_, ?_, ?_⟩
  · rw [← ea1, h1, eb1]
  · rw [← ea2]; exact h2
  · rw [← ea2, h3, eb2]

theorem inv_updateTaskStatus (db : DB) (id : Nat) (p : Bool) (e : Option String)
    (h : Inv db) : Inv (updateTaskStatus db id p e) :=
  ⟨tasksUnique_updateTaskStatus id p e h.1, h.2.1, h.2.2⟩

theorem inv_seed (db : DB) (h : Inv db) : Inv ((seed db).getD db) := by
  cases hst : getStartingStep db.steps with
  | none => simpa [seed, hst] using h
  | some st =>
    cases hfu : firstUnprocessed db st.id with
    | some t =>
      have heq : (seed db).getD db = updateTaskStatus db t.id true none := by
        simp [seed, hst, hfu]
      rw [heq]
      exact inv_updateTaskStatus db t.id true none h
    | none =>
      have hconf : taskConflict db.tasks st.id none = false := rfl
      have heq : (seed db).getD db = updateTaskStatus
          { db with
            tasks := db.tasks ++ [⟨db.nextTaskId, st.id, none, false, none⟩]
            nextTaskId := db.nextTaskId + 1 } db.nextTaskId true none := by
        simp [seed, hst, hfu, createTask, hconf]
      rw [heq]
      apply inv_updateTaskStatus
      exact ⟨tasksUnique_insert_noConflict hconf h.1 _ _ _, h.2.1, h.2.2⟩

theorem inv_schedule (db : DB) (sid : Nat) (h : Inv db) :
    Inv (match scheduleTasksForStep db sid with
      | none => db
      | some (_, d) => d) := by
  cases hg : getStep db sid with
  | none => simpa [scheduleTasksForStep, hg] using h
  | some step =>
    by_cases hinp : step.inputs = []
    · simpa [scheduleTasksForStep, hg, hinp] using h
    · have heq : (match scheduleTasksForStep db sid with
          | none => db
          | some (_, d) => d) =
          { db with
            tasks := db.tasks ++
              newTasksFor db.nextTaskId sid (unconsumedFor db sid step.inputs)
            nextTaskId := db.nextTaskId +
              (newTasksFor db.nextTaskId sid (unconsumedFor db sid step.inputs)).length } := by
        simp [scheduleTasksForStep, hg, hinp]
      rw [heq]
      refine ⟨?_, h.2.1, h.2.2⟩
      apply List.pairwise_append.mpr
      refine ⟨h.1, ?_, ?_⟩
      · exact tasksUnique_newTasksFor
          (List.Pairwise.sublist (List.filter_sublist _) h.2.1) db.nextTaskId
      · intro a ha b hb
        exact taskCompat_schedule_cross ha hb

theorem inv_createResource (db : DB) (name hash : String) (h : Inv db) :
    Inv (createResource db name hash).2 := by
  cases hf : db.resources.find? (fun r => r.name == name && r.objectHash == hash) with
  | some r => simpa [createResource, hf] using h
  | none =>
    have heq : (createResource db name hash).2 =
        { db with
          resources := db.resources ++ [⟨db.nextResourceId, name, hash⟩]
          nextResourceId := db.nextResourceId + 1 } := by
      simp [createResource, hf]
    rw [heq]
    refine ⟨h.1, ?_, ?_⟩
    · apply List.pairwise_append.mpr
      refine ⟨h.2.1, List.pairwise_singleton _ _, ?_⟩
      intro a ha b hb
      rw [List.mem_singleton] at hb
      subst hb
      exact Nat.ne_of_lt (h.2.2 a ha)
    · intro r hr
      rcases List.mem_append.mp hr with hr' | hr'
      · exact Nat.lt_trans (h.2.2 r hr') (Nat.lt_succ_self _)
      · rw [List.mem_singleton] at hr'
        subst hr'
        exact Nat.lt_succ_self _

theorem inv_migrate (db : DB) (tid : Nat) (h : Inv db) :
    Inv (migrateTaintedTasksSpec db tid) := by
  cases h1 : getStep db tid with
  | none => simpa [migrateTaintedTasksSpec, h1] using h
  | some tainted =>
    cases h2 : getStepByNameM db.steps tainted.name with
    | none => simpa [migrateTaintedTasksSpec, h1, h2] using h
    | some latest =>
      cases h3 : batchInsertTasksAux db.tasks db.nextTaskId
          ((db.tasks.filter fun t => t.stepId == tid).map
            fun t => (latest.id, t.inputResourceId, false, (none : Option String))) with
      | none => simpa [migrateTaintedTasksSpec, h1, h2, h3] using h
      | some res =>
        obtain ⟨ts, nid⟩ := res
        have heq : migrateTaintedTasksSpec db tid =
            { db with tasks := ts, nextTaskId := nid } := by
          simp [migrateTaintedTasksSpec, h1, h2, h3]
        rw [heq]
        exact ⟨tasksUnique_batchInsertTasksAux _ _ _ _ h.1 h3, h.2.1, h.2.2⟩

theorem inv_applyOp (db : DB) (op : DBOp) (h : Inv db) : Inv (applyOp db op) := by
  cases op with
  | newTask sid r p e =>
    cases hc : taskConflict db.tasks sid r with
    | true => simpa [applyOp, createTask, hc] using h
    | false =>
      have heq : applyOp db (.newTask sid r p e) =
          { db with
            tasks := db.tasks ++ [⟨db.nextTaskId, sid, r, p, e⟩]
            nextTaskId := db.nextTaskId + 1 } := by
        simp [applyOp, createTask, hc]
      rw [heq]
      exact ⟨tasksUnique_insert_noConflict hc h.1 _ _ _, h.2.1, h.2.2⟩
  | newTasksFromResources sid rids =>
    exact ⟨tasksUnique_createTasksFromResourcesAux rids db.tasks db.nextTaskId h.1,
      h.2.1, h.2.2⟩
  | batchTasks specs =>
    cases hb : batchInsertTasksAux db.tasks db.nextTaskId specs with
    | none => simpa [applyOp, batchInsertTasks, hb] using h
    | some res =>
      obtain ⟨ts, nid⟩ := res
      have heq : applyOp db (.batchTasks specs) = { db with tasks := ts, nextTaskId := nid } := by
        simp [applyOp, batchInsertTasks, hb]
      rw [heq]
      exact ⟨tasksUnique_batchInsertTasksAux _ _ _ _ h.1 hb, h.2.1, h.2.2⟩
  | schedule sid => exact inv_schedule db sid h
  | seedStart => exact inv_seed db h
  | newResource n hs => exact inv_createResource db n hs h
  | migrate tid => exact inv_migrate db tid h
  | setTaskStatus id p e => exact inv_updateTaskStatus db id p e h

theorem inv_applyOps (db : DB) (ops : List DBOp) (h : Inv db) :
    Inv (applyOps db ops) := by
  induction ops generalizing db with
  | nil => exact h
  | cons op rest ih => exact ih (applyOp db op) (inv_applyOp db op h)

/-- C3 amended.  Starting from any well-formed store, every sequence of the
task-creating operations (CreateTask, BatchInsertTasks,
CreateTasksFromResources, ScheduleTasksForStep, Seed, spec-modelled
MigrateTaintedTasks, plus resource creation and status updates) preserves:
no two task rows share a `(step_id, input_resource_id)` pair with a
*non-NULL* resource id.  Rows with NULL `input_resource_id` are exempt —
SQLite's unique index treats NULLs as distinct, and `Seed` does duplicate
them (see the counterexample). -/
theorem C3_pair_unique_amended (db : DB) (ops : List DBOp) (h : Inv db) :
    TasksUnique (applyOps db ops).tasks :=
  (inv_applyOps db ops h).1

/-- A fresh store holding only a start step. -/
def c3invdb : DB :=
  { steps := [⟨1, "a", "echo", true, none, [], 1⟩]
    resources := []
    tasks := []
    nextStepId := 2
    nextResourceId := 1
    nextTaskId := 1 }

/-- Witness for C3 amended: resource creation, scheduling and seeding on a
concrete fresh store, with the invariant discharged explicitly. -/
theorem C3_pair_unique_amended_witness :
    TasksUnique (applyOps c3invdb
      [DBOp.newResource "b" "h", DBOp.schedule 1, DBOp.seedStart]).tasks :=
  C3_pair_unique_amended c3invdb
    [DBOp.newResource "b" "h", DBOp.schedule 1, DBOp.seedStart]
    ⟨List.Pairwise.nil, List.Pairwise.nil, fun r hr => absurd hr (List.not_mem_nil r)⟩

/-- C3 counterexample: running `Seed` on two consecutive `run` invocations
of the start-step-only store leaves *two* task rows with
`(step_id = 1, input_resource_id = NULL)` — the first seed task is
processed by the first run, so the second run's `Seed` finds no unprocessed
task and inserts another NULL-input row (SQLite's unique index does not
reject it). -/
theorem C3_pair_unique_counterexample :
    ((applyOps c3invdb [DBOp.seedStart, DBOp.seedStart]).tasks.filter fun t =>
        t.stepId == 1 && t.inputResourceId == none).length = 2 := by
  decide

/-- C1 counterexample: on "foo.txt" the resource ingester
(`MakeResourceConsumer`) derives "foo.txt" — it takes the prefix before
the first `_` of the whole filename without stripping the extension —
whereas the claimed derivation (strip extension, then prefix) gives
"foo". -/
theorem C1_name_derivation_counterexample :
    resourceConsumerNameS "foo.txt" = "foo.txt" ∧
    specResourceNameS "foo.txt" = "foo" ∧
    ("foo.txt" : String) ≠ "foo" := by
  refine ⟨by decide, by decide, by decide⟩

/-- C1 amended.  The *routing* function `extractStepName` implements the
claimed derivation exactly (strip the final extension, then the prefix
before the first `_`) and satisfies all four spec examples; the resource
ingester `MakeResourceConsumer` instead derives the name as the prefix of
the whole filename before the first `_`, so it agrees on "foo_123.txt",
"foo" and "foo_bar_baz.x" but maps "foo.txt" to "foo.txt". -/
theorem C1_name_derivation_amended :
    (∀ f : List Char, extractStepName f = specResourceName f) ∧
    (∀ f : List Char, resourceConsumerName f = beforeUnderscore f) ∧
    (extractStepNameS "foo_123.txt" = "foo" ∧ extractStepNameS "foo.txt" = "foo" ∧
      extractStepNameS "foo" = "foo" ∧ extractStepNameS "foo_bar_baz.x" = "foo") ∧
    (resourceConsumerNameS "foo_123.txt" = "foo" ∧
      resourceConsumerNameS "foo.txt" = "foo.txt" ∧
      resourceConsumerNameS "foo" = "foo" ∧
      resourceConsumerNameS "foo_bar_baz.x" = "foo") :=
  ⟨extractStepName_eq_specResourceName, resourceConsumerName_eq_beforeUnderscore,
    ⟨by decide, by decide, by decide, by decide⟩,
    ⟨by decide, by decide, by decide, by decide⟩⟩

/-- C10.  A filename whose extension-stripped base begins with `_`
(e.g. "_foo.txt"), and a filename whose only `.` is its first character
(e.g. ".txt"), both derive the empty logical name; and an empty name
matches no step when every manifest step has a non-empty name
(`GetStepByName` finds nothing, so the emission is dropped with a
warning). -/
theorem C10_empty_logical_name :
    (extractStepNameS "_foo.txt" = "" ∧ extractStepNameS ".txt" = "") ∧
    (∀ (f rest : List Char), stripExtSpec f = '_' :: rest →
      extractStepName f = []) ∧
    (∀ rest : List Char, '.' ∉ rest → extractStepName ('.' :: rest) = []) ∧
    (∀ steps : List StepRow, (∀ s ∈ steps, s.name ≠ "") →
      getStepByNameM steps "" = none) := by
  refine ⟨⟨by decide, by decide⟩, ?_, ?_, ?_⟩
  · intro f rest hstrip
    rw [extractStepName_eq_specResourceName]
    unfold specResourceName beforeUnderscore
    rw [hstrip]
    simp [List.takeWhile_cons]
  · intro rest hrest
    have hln : lastIndexOf '.' rest = none :=
      (lastIndexOf_eq_none_iff '.' rest).mpr hrest
    have hbase : extractBase ('.' :: rest) = [] := by
      unfold extractBase
      simp [lastIndexOf, hln]
    unfold extractStepName
    rw [hbase]
    simp [indexOf]
  · intro steps hnames
    unfold getStepByNameM
    have hfil : steps.filter (fun s => s.name == "") = [] := by
      apply List.filter_eq_nil_iff.mpr
      intro s hs
      simpa using hnames s hs
    rw [hfil]
    rfl

/-- Witness for C10 at concrete inputs: ".txt" via the only-dot clause,
"_foo.txt" via the leading-underscore clause, and an empty-name lookup on
a one-step table. -/
theorem C10_empty_logical_name_witness :
    extractStepName ('.' :: "txt".data) = [] ∧
    extractStepName "_foo.txt".data = [] ∧
    getStepByNameM [⟨1, "a", "A", false, none, [], 1⟩] "" = none :=
  ⟨C10_empty_logical_name.2.2.1 "txt".data (by decide),
    C10_empty_logical_name.2.1 "_foo.txt".data "foo".data (by decide),
    C10_empty_logical_name.2.2.2 [⟨1, "a", "A", false, none, [], 1⟩] (by decide)⟩

end TaskPipeline
